import Mathlib

/-!
Verification of the FlashSync live-preview engine (src/src/extension.ts).

The development shallowly embeds the functional core of the extension:

* string search and first-occurrence replacement (the semantics of the
  JavaScript `String.prototype.includes` / `String.prototype.replace`
  calls used by `injectScript`);
* `injectScript` itself (extension.ts lines 139-145);
* `getFreePort` (lines 29-38), with the operating system's set of
  currently bound ports abstracted as a finite list `busy`;
* the session engine: the module-level mutable state (lines 8-24),
  `startServer` / `stopServer` / `deactivate`, the `broadcastIfAllowed`
  closure (lines 224-238), the debounced `onDidChangeTextDocument`
  handler (lines 240-252) and the `onDidSaveTextDocument` handler
  (lines 254-256), all as a deterministic small-step semantics over
  timestamped event traces.

Strings are modelled as `List Char` internally (`String.data`), which is
exactly the character sequence of the JavaScript string.
-/

/-! ## Character-list string primitives -/

/-- Boolean prefix test on character lists.  `isPre p s = true` iff `p`
is a prefix of `s`.  This is the primitive from which substring search
is built. -/
def isPre : List Char → List Char → Bool
  | [], _ => true
  | _ :: _, [] => false
  | a :: xs, b :: ys => a = b && isPre xs ys

/-- Number of positions `i` (with `0 ≤ i ≤ s.length`) at which `pat`
occurs in `s`, i.e. at which `pat` is a prefix of `s.drop i`.  This is
the count of (possibly overlapping) substring occurrences. -/
def occurs (pat : List Char) : List Char → Nat
  | [] => if isPre pat [] = true then 1 else 0
  | c :: tl => (if isPre pat (c :: tl) = true then 1 else 0) + occurs pat tl

/-- Index of the first occurrence of `pat` in `s`, scanning left to
right, or `none` when `pat` does not occur.  Mirrors the search that
JavaScript `String.prototype.indexOf` / `replace` perform. -/
def firstOcc (pat : List Char) : List Char → Option Nat
  | [] => if isPre pat [] = true then some 0 else none
  | c :: tl =>
    if isPre pat (c :: tl) = true then some 0
    else (firstOcc pat tl).map (fun i => i + 1)

/-- Model of JavaScript `String.prototype.includes` restricted to the
uses in the source: `pat` occurs somewhere in `s`. -/
def includesL (pat s : List Char) : Bool := (firstOcc pat s).isSome

/-- Model of JavaScript `String.prototype.replace` with a plain string
pattern: replace the first occurrence of `pat` by `repl`, or return the
string unchanged when `pat` does not occur.  (The replacement strings
used by the source contain no `$` patterns.) -/
def replaceFirst (pat repl s : List Char) : List Char :=
  match firstOcc pat s with
  | none => s
  | some i => s.take i ++ repl ++ s.drop (i + pat.length)

/-! ## The injected-script helper (extension.ts lines 139-145) -/

/-- The bootstrap script filename searched for by `injectScript`
(the string literal at extension.ts line 140). -/
def PAT : List Char := "flashsync.js".data

/-- The closing head tag searched for at extension.ts line 142. -/
def HEADC : List Char := "</head>".data

/-- The closing body tag searched for at extension.ts line 143. -/
def BODYC : List Char := "</body>".data

/-- One decimal digit character. -/
def digitChar (d : Nat) : Char :=
  if d = 0 then '0' else if d = 1 then '1' else if d = 2 then '2'
  else if d = 3 then '3' else if d = 4 then '4' else if d = 5 then '5'
  else if d = 6 then '6' else if d = 7 then '7' else if d = 8 then '8'
  else '9'

/-- Fuelled decimal rendering of a natural number (most significant
digit first); with fuel at least `n + 1` this is the usual decimal
representation, matching the JavaScript template interpolation of the
port number at extension.ts line 141. -/
def toDigitsAux : Nat → Nat → List Char
  | 0, _ => []
  | fuel + 1, n =>
    if n < 10 then [digitChar n]
    else toDigitsAux fuel (n / 10) ++ [digitChar (n % 10)]

/-- Decimal character rendering of a natural number. -/
def natChars (n : Nat) : List Char := toDigitsAux (n + 1) n

/-- The script tag built at extension.ts line 141:
the template literal with the port interpolated. -/
def tagChars (port : Nat) : List Char :=
  "\n<script src=\"http://127.0.0.1:".data ++ natChars port
    ++ "/flashsync.js\" defer></script>\n".data

/-- Model of `injectScript` (extension.ts lines 139-145), on character
lists: return unchanged when the document already mentions the
bootstrap filename; otherwise insert the script tag before the first
closing head tag, else before the first closing body tag, else append
it at the end. -/
def injectL (html : List Char) (port : Nat) : List Char :=
  if includesL PAT html = true then html
  else if includesL HEADC html = true then
    replaceFirst HEADC (tagChars port ++ HEADC) html
  else if includesL BODYC html = true then
    replaceFirst BODYC (tagChars port ++ BODYC) html
  else html ++ tagChars port

/-- `injectScript` on Lean strings. -/
def injectScript (html : String) (port : Nat) : String :=
  String.mk (injectL html.data port)

/-! ## Session engine model (extension.ts lines 8-24, 150-279, 460-469) -/

/-- The session state machine (extension.ts lines 19-24). -/
inductive ServerState where
  | stopped
  | running_editing
  | running_paused
deriving DecidableEq, Repr

/-- A text document as the engine sees it: `uri` is the debounce-map
key (`e.document.uri.toString()`, line 242) and `fileName` is
`doc.fileName`, used for the extension check and the payload. -/
structure Doc where
  uri : String
  fileName : String
deriving DecidableEq, Repr

/-- One scheduled debounce timer: an entry of `debounceTimers`
(line 16), keyed by document identity, firing at `deadline`, whose
callback captured the document object `doc`. -/
structure Pending where
  key : String
  deadline : Nat
  doc : Doc
deriving DecidableEq, Repr

/-- A change message handed to the websocket hub for fan-out: the
payload of lines 231-234 plus the (model-level) send timestamp. -/
structure Msg where
  file : String
  content : String
  sentAt : Nat
deriving DecidableEq, Repr

/-- The module-level mutable state of the extension: `serverState`,
`wss`, `httpServer`, `activePort`, `listenersRegistered`,
`debounceTimers` (lines 8-24), plus the editor's buffer contents
(`docs`, keyed by uri — `doc.getText()` reads it) and an instrumentation
counter `listenersCreated` that counts how many HTTP listeners have
ever been created (one per `http.createServer` call, line 156). -/
structure Engine where
  serverState : ServerState
  wss : Bool
  httpServer : Bool
  activePort : Option Nat
  listenersRegistered : Bool
  listenersCreated : Nat
  timers : List Pending
  docs : List (String × String)
deriving DecidableEq, Repr

/-- The debounce quiet window (extension.ts line 17). -/
def DEBOUNCE_MS : Nat := 140

/-- The watched file extensions (extension.ts line 229), as character
lists. -/
def WATCHEDL : List (List Char) := [".html".data, ".htm".data, ".css".data]

/-- ASCII lowercasing, the model of `String.prototype.toLowerCase` on
the extension strings that occur here. -/
def toLowerL (l : List Char) : List Char := l.map Char.toLower

/-- The basename of a path: the part after the last slash. -/
def basenameL (l : List Char) : List Char :=
  (l.reverse.takeWhile (fun c => decide (¬ c = '/'))).reverse

/-- Model of Node `path.extname`: the extension from the last dot of
the basename to the end; empty when the basename has no dot or its
last dot is its first character (dotfiles). -/
def extnameL (l : List Char) : List Char :=
  let b := basenameL l
  let afterDot := b.reverse.takeWhile (fun c => decide (¬ c = '.'))
  if '.' ∈ b then
    if afterDot.length + 1 = b.length then []
    else '.' :: afterDot.reverse
  else []

/-- The extension check of `broadcastIfAllowed` (lines 228-229):
`[".html", ".htm", ".css"].includes(path.extname(fileName).toLowerCase())`. -/
def watched (fileName : String) : Bool :=
  decide (toLowerL (extnameL fileName.data) ∈ WATCHEDL)

/-- Current buffer content of the document with key `k` (the model of
`doc.getText()`); unopened documents read as empty. -/
def lookupDoc (docs : List (String × String)) (k : String) : String :=
  match docs.find? (fun kv => decide (kv.1 = k)) with
  | some kv => kv.2
  | none => ""

/-- Replace the buffer content of key `k`. -/
def setDoc (docs : List (String × String)) (k c : String) :
    List (String × String) :=
  (k, c) :: docs.filter (fun kv => decide (¬ kv.1 = k))

/-- `broadcastIfAllowed` (extension.ts lines 224-238): the guards are
checked at the moment of the call — `wss` present, state
`running_editing`, watched extension — and only then is the payload
(current file name and current full text) given to the hub.  The
returned list is the message fanned out to every ready client (empty
when any guard fails). -/
def broadcastIfAllowed (e : Engine) (now : Nat) (d : Doc) : List Msg :=
  if e.wss = true then
    if e.serverState = ServerState.running_editing then
      if watched d.fileName = true then
        [⟨d.fileName, lookupDoc e.docs d.uri, now⟩]
      else []
    else []
  else []

/-- `startServer` (extension.ts lines 150-260), with the asynchronous
parts resolved: if a server is already running, return the existing
port unchanged (line 151); otherwise install the listener/hub pair on
the freshly allocated port (passed in as `allocated`, abstracting the
awaited `getFreePort` result), register the editor listeners once, and
enter `running_editing` (the listen callback, line 214). -/
def startServer (e : Engine) (allocated : Nat) : Engine × Option Nat :=
  if e.httpServer = true then (e, e.activePort)
  else
    ({ e with
        httpServer := true
        wss := true
        activePort := some allocated
        serverState := ServerState.running_editing
        listenersRegistered := true
        listenersCreated := e.listenersCreated + 1 }, some allocated)

/-- `stopServer` (extension.ts lines 265-279): close and null the hub
and listener, clear the port, return to `stopped`.  The optional
chaining and try/catch make it total, so calling it in any state —
including already stopped — is safe.  Note that it does NOT touch
`debounceTimers`. -/
def stopServer (e : Engine) : Engine :=
  { e with
      wss := false
      httpServer := false
      activePort := none
      serverState := ServerState.stopped }

/-- `deactivate` (extension.ts lines 460-469): closes the hub and
listener handles and cancels and clears every outstanding debounce
timer.  It does not change `serverState` or null the handles. -/
def deactivate (e : Engine) : Engine := { e with timers := [] }

/-- External events driving the engine, each carried with its
timestamp in a trace:

* `edit d c` — `onDidChangeTextDocument` (lines 240-252): the buffer
  of `d` now reads `c`; if the listeners are registered, the pending
  timer for `d.uri` (if any) is cancelled and replaced by a fresh one
  due `DEBOUNCE_MS` later.
* `save d` — `onDidSaveTextDocument` (lines 254-256): immediate
  `broadcastIfAllowed`, no interaction with the timers.
* `startCmd p` — the toggle command starting the server, with `p` the
  port `getFreePort` resolved to.
* `stopCmd` — the `flashsync.stop` command (line 413).
* `pauseCmd` / `resumeCmd` — the toggle command while running
  (lines 389-406).
* `elapse` — no external action; lets scheduled timers up to its
  timestamp fire. -/
inductive Ev where
  | edit (d : Doc) (content : String)
  | save (d : Doc)
  | startCmd (port : Nat)
  | stopCmd
  | pauseCmd
  | resumeCmd
  | elapse
deriving DecidableEq, Repr

/-- Handle one external event at time `t`.  Returns the new engine
state and the messages this event emitted synchronously. -/
def handle (e : Engine) (t : Nat) (ev : Ev) : Engine × List Msg :=
  match ev with
  | Ev.edit d c =>
    let e1 := { e with docs := setDoc e.docs d.uri c }
    if e1.listenersRegistered = true then
      ({ e1 with
          timers := e1.timers.filter (fun q => decide (¬ q.key = d.uri))
            ++ [⟨d.uri, t + DEBOUNCE_MS, d⟩] }, [])
    else (e1, [])
  | Ev.save d =>
    if e.listenersRegistered = true then (e, broadcastIfAllowed e t d)
    else (e, [])
  | Ev.startCmd p => ((startServer e p).1, [])
  | Ev.stopCmd => (stopServer e, [])
  | Ev.pauseCmd =>
    if e.serverState = ServerState.running_editing then
      ({ e with serverState := ServerState.running_paused }, [])
    else (e, [])
  | Ev.resumeCmd =>
    if e.serverState = ServerState.running_paused then
      ({ e with serverState := ServerState.running_editing }, [])
    else (e, [])
  | Ev.elapse => (e, [])

/-- Fire the given (already due) timers in order.  Each callback
(lines 246-249) runs `broadcastIfAllowed` against the engine state AT
FIRING TIME and then deletes its own map entry.  The log records, per
callback, the engine state it ran against and the messages it sent. -/
def fireAux : Engine → List Pending → Engine × List (Engine × List Msg)
  | e, [] => (e, [])
  | e, p :: rest =>
    let ms := broadcastIfAllowed e p.deadline p.doc
    let e1 := { e with timers := e.timers.filter (fun q => decide (¬ q.key = p.key)) }
    let r := fireAux e1 rest
    (r.1, (e, ms) :: r.2)

/-- Fire every timer whose deadline has been reached by time `t`. -/
def fireDue (e : Engine) (t : Nat) : Engine × List (Engine × List Msg) :=
  fireAux e (e.timers.filter (fun p => decide (p.deadline ≤ t)))

/-- One trace step: timers due by time `t` fire first (the event loop
runs their callbacks before the new event), then the event itself is
handled.  The log pairs each micro-step's pre-state with the messages
it emitted. -/
def step (e : Engine) (t : Nat) (ev : Ev) : Engine × List (Engine × List Msg) :=
  let f := fireDue e t
  let h := handle f.1 t ev
  (h.1, f.2 ++ [(f.1, h.2)])

/-- Run a timestamped event trace. -/
def exec : Engine → List (Nat × Ev) → Engine × List (Engine × List Msg)
  | e, [] => (e, [])
  | e, te :: rest =>
    let s := step e te.1 te.2
    let r := exec s.1 rest
    (r.1, s.2 ++ r.2)

/-- The initial module state (extension.ts lines 8-24): stopped, no
handles, no listeners, no timers. -/
def initEngine : Engine :=
  ⟨ServerState.stopped, false, false, none, false, 0, [], []⟩

/-- Run a trace from the initial state. -/
def runTrace (tr : List (Nat × Ev)) : Engine × List (Engine × List Msg) :=
  exec initEngine tr

/-- All messages a trace broadcasts, in order. -/
def outputs (tr : List (Nat × Ev)) : List Msg :=
  ((runTrace tr).2.map (fun pr => pr.2)).flatten

/-- The engine state after a trace. -/
def finalState (tr : List (Nat × Ev)) : Engine := (runTrace tr).1

/-! ## Port allocation (extension.ts lines 29-38) -/

/-- Model of `getFreePort`: `busy` is the finite set of local ports the
operating system currently refuses to bind (the `error` event path,
line 36); binding any other port succeeds and is immediately released
(lines 32-35).  The source recurses without bound on `busy`; the model
makes the recursion structural on a fuel argument, and the theorems use
fuel `busy.length + 1`, which is always enough. -/
def getFreePort (busy : List Nat) : Nat → Nat → Option Nat
  | 0, _ => none
  | fuel + 1, start =>
    if start ∈ busy then getFreePort busy fuel (start + 1)
    else some start

/-- Invariant carried through a burst of edits to one document `d`
in the debounce-coalescing proofs: the session is live-editing with
the hub up and listeners registered, exactly one timer is pending —
for `d`, rescheduled from the most recent edit at time `t` — and the
buffer of `d` reads `c`. -/
def InvC3 (d : Doc) (e : Engine) (t : Nat) (c : String) : Prop :=
  e.serverState = ServerState.running_editing ∧ e.wss = true ∧
    e.listenersRegistered = true ∧
    e.timers = [⟨d.uri, t + DEBOUNCE_MS, d⟩] ∧
    lookupDoc e.docs d.uri = c

/-- The engine state right after a fresh successful start on port `p`
from the initial state: live-editing, hub and listener up, listeners
registered, one listener ever created, no timers, no buffers. -/
def E0 (p : Nat) : Engine :=
  ⟨ServerState.running_editing, true, true, some p, true, 1, [], []⟩


/-! ## Lemmas -/


/-! ### Lemmas about the primitives -/

theorem isPre_append_of_isPre {p s : List Char} (t : List Char)
    (h : isPre p s = true) : isPre p (s ++ t) = true := by
  induction p generalizing s with
  | nil => simp [isPre]
  | cons a xs ih =>
    cases s with
    | nil => simp [isPre] at h
    | cons b ys =>
      simp only [isPre, Bool.and_eq_true, decide_eq_true_eq] at h ⊢
      exact ⟨h.1, ih h.2⟩

theorem length_le_of_isPre {p s : List Char} (h : isPre p s = true) :
    p.length ≤ s.length := by
  induction p generalizing s with
  | nil => simp
  | cons a xs ih =>
    cases s with
    | nil => simp [isPre] at h
    | cons b ys =>
      simp only [isPre, Bool.and_eq_true] at h
      simpa [Nat.succ_le_succ_iff] using ih h.2

theorem isPre_of_isPre_append {p s t : List Char}
    (h : isPre p (s ++ t) = true) (hl : p.length ≤ s.length) :
    isPre p s = true := by
  induction p generalizing s with
  | nil => simp [isPre]
  | cons a xs ih =>
    cases s with
    | nil => simp at hl
    | cons b ys =>
      simp only [List.cons_append, isPre, Bool.and_eq_true] at h ⊢
      exact ⟨h.1, ih h.2 (by simpa [Nat.succ_le_succ_iff] using hl)⟩

theorem head_mem_of_isPre {p : List Char} {d : Char} {r : List Char}
    (h : isPre p (d :: r) = true) (hp : p ≠ []) : d ∈ p := by
  cases p with
  | nil => exact absurd rfl hp
  | cons a xs =>
    simp only [isPre, Bool.and_eq_true, decide_eq_true_eq] at h
    simp [h.1]

theorem mem_of_isPre_across {p : List Char} {A : List Char} {d : Char}
    {r : List Char} (h : isPre p (A ++ d :: r) = true)
    (hl : A.length < p.length) : d ∈ p := by
  induction A generalizing p with
  | nil =>
    exact head_mem_of_isPre h (by intro he; subst he; simp at hl)
  | cons a A ih =>
    cases p with
    | nil => simp at hl
    | cons q p =>
      simp only [List.cons_append, isPre, Bool.and_eq_true] at h
      exact List.mem_cons_of_mem _ (ih h.2 (by simpa [Nat.succ_lt_succ_iff] using hl))

theorem drop_eq_append_of_isPre {p s : List Char}
    (h : isPre p s = true) : s = p ++ s.drop p.length := by
  induction p generalizing s with
  | nil => simp
  | cons a xs ih =>
    cases s with
    | nil => simp [isPre] at h
    | cons b ys =>
      simp only [isPre, Bool.and_eq_true, decide_eq_true_eq] at h
      obtain ⟨rfl, h2⟩ := h
      simpa using ih h2

/-! ### Occurrence-count lemmas -/

theorem occurs_nil (pat : List Char) (hp : pat ≠ []) :
    occurs pat [] = 0 := by
  cases pat with
  | nil => exact absurd rfl hp
  | cons a xs => simp [occurs, isPre]

theorem occurs_cons_not_mem {pat : List Char} {d : Char} (Y : List Char)
    (hp : pat ≠ []) (hd : d ∉ pat) :
    occurs pat (d :: Y) = occurs pat Y := by
  have : isPre pat (d :: Y) = false := by
    cases h : isPre pat (d :: Y) with
    | false => rfl
    | true => exact absurd (head_mem_of_isPre h hp) hd
  simp [occurs, this]

theorem occurs_append_skip {pat : List Char} (D Y : List Char)
    (hp : pat ≠ []) (hD : ∀ c ∈ D, c ∉ pat) :
    occurs pat (D ++ Y) = occurs pat Y := by
  induction D with
  | nil => simp
  | cons d D ih =>
    rw [List.cons_append, occurs_cons_not_mem _ hp (hD d (by simp))]
    exact ih (fun c hc => hD c (List.mem_cons_of_mem _ hc))

theorem occurs_le_append_left (pat X Y : List Char) :
    occurs pat Y ≤ occurs pat (X ++ Y) := by
  induction X with
  | nil => simp
  | cons x X ih =>
    rw [List.cons_append]
    calc occurs pat Y ≤ occurs pat (X ++ Y) := ih
      _ ≤ _ := by simp [occurs]

theorem occurs_le_append_right (pat X Y : List Char) (hp : pat ≠ []) :
    occurs pat X ≤ occurs pat (X ++ Y) := by
  induction X with
  | nil => simp [occurs_nil pat hp]
  | cons x X ih =>
    rw [List.cons_append]
    simp only [occurs]
    have hif : (if isPre pat (x :: X) = true then 1 else 0)
        ≤ (if isPre pat (x :: (X ++ Y)) = true then 1 else 0) := by
      by_cases h : isPre pat (x :: X) = true
      · have := isPre_append_of_isPre (s := x :: X) Y h
        simp only [List.cons_append] at this
        simp [h, this]
      · simp [h]
    omega

theorem occurs_append_sep {pat : List Char} (X D Y : List Char)
    (hp : pat ≠ []) (hD : D ≠ []) (hchar : ∀ c ∈ D, c ∉ pat) :
    occurs pat (X ++ (D ++ Y)) = occurs pat X + occurs pat Y := by
  induction X with
  | nil => simpa [occurs_nil pat hp] using occurs_append_skip D Y hp hchar
  | cons x X ih =>
    rw [List.cons_append]
    have hcond : isPre pat (x :: (X ++ (D ++ Y))) = isPre pat (x :: X) := by
      cases h1 : isPre pat (x :: X) with
      | true =>
        have := isPre_append_of_isPre (s := x :: X) (D ++ Y) h1
        simpa using this
      | false =>
        cases h2 : isPre pat (x :: (X ++ (D ++ Y))) with
        | false => rfl
        | true =>
          by_cases hl : pat.length ≤ (x :: X).length
          · have := isPre_of_isPre_append
              (s := x :: X) (t := D ++ Y) (by simpa using h2) hl
            rw [this] at h1; exact h1
          · obtain ⟨d, D', rfl⟩ : ∃ d D', D = d :: D' := by
              cases D with
              | nil => exact absurd rfl hD
              | cons d D' => exact ⟨d, D', rfl⟩
            have hmem : d ∈ pat := by
              have h2x : isPre pat ((x :: X) ++ (d :: (D' ++ Y))) = true := by
                simpa using h2
              exact mem_of_isPre_across h2x (by omega)
            exact absurd hmem (hchar d (by simp))
    simp only [occurs, hcond, ih]
    omega

/-! ### First-occurrence lemmas -/

theorem firstOcc_none_iff (pat s : List Char) :
    firstOcc pat s = none ↔ occurs pat s = 0 := by
  induction s with
  | nil =>
    by_cases h : isPre pat [] = true <;> simp [firstOcc, occurs, h]
  | cons c tl ih =>
    by_cases h : isPre pat (c :: tl) = true
    · simp [firstOcc, occurs, h]
    · simp [firstOcc, occurs, h, Option.map_eq_none', ih]

theorem firstOcc_isPre_drop {pat s : List Char} {i : Nat}
    (h : firstOcc pat s = some i) :
    isPre pat (s.drop i) = true ∧ i ≤ s.length := by
  induction s generalizing i with
  | nil =>
    by_cases hp : isPre pat [] = true
    · simp only [firstOcc, if_pos hp, Option.some.injEq] at h
      subst h; exact ⟨hp, by simp⟩
    · simp [firstOcc, hp] at h
  | cons c tl ih =>
    by_cases hp : isPre pat (c :: tl) = true
    · simp only [firstOcc, if_pos hp, Option.some.injEq] at h
      subst h; exact ⟨hp, by simp⟩
    · simp only [firstOcc, if_neg hp, Option.map_eq_some'] at h
      obtain ⟨j, hj, rfl⟩ := h
      have := ih hj
      exact ⟨by simpa using this.1, by simpa [Nat.succ_le_succ_iff] using this.2⟩

theorem firstOcc_minimal {pat s : List Char} {i : Nat}
    (h : firstOcc pat s = some i) :
    ∀ j, j < i → isPre pat (s.drop j) = false := by
  induction s generalizing i with
  | nil =>
    by_cases hp : isPre pat [] = true
    · simp only [firstOcc, if_pos hp, Option.some.injEq] at h
      omega
    · simp [firstOcc, hp] at h
  | cons c tl ih =>
    by_cases hp : isPre pat (c :: tl) = true
    · simp only [firstOcc, if_pos hp, Option.some.injEq] at h
      omega
    · simp only [firstOcc, if_neg hp, Option.map_eq_some'] at h
      obtain ⟨k, hk, rfl⟩ := h
      intro j hj
      cases j with
      | zero => simpa using hp
      | succ j => simpa using ih hk j (by omega)

theorem replaceFirst_eq {pat repl s : List Char} {i : Nat}
    (h : firstOcc pat s = some i) :
    replaceFirst pat repl s = s.take i ++ repl ++ s.drop (i + pat.length) := by
  simp [replaceFirst, h]

theorem take_append_drop_occ {pat s : List Char} {i : Nat}
    (h : firstOcc pat s = some i) :
    s.take i ++ (pat ++ s.drop (i + pat.length)) = s := by
  have h1 := (firstOcc_isPre_drop h).1
  have h2 := drop_eq_append_of_isPre h1
  have h3 : (s.drop i).drop pat.length = s.drop (i + pat.length) := by
    rw [List.drop_drop, Nat.add_comm]
  calc s.take i ++ (pat ++ s.drop (i + pat.length))
      = s.take i ++ (pat ++ (s.drop i).drop pat.length) := by rw [h3]
    _ = s.take i ++ s.drop i := by rw [← h2]
    _ = s := List.take_append_drop i s

theorem string_mk_data (s : String) : String.mk s.data = s := by
  cases s; rfl

/-! ### Digit facts -/

theorem digitChar_not_mem_PAT (d : Nat) : digitChar d ∉ PAT := by
  unfold digitChar
  split_ifs <;> decide

theorem toDigitsAux_mem {fuel n : Nat} {c : Char}
    (h : c ∈ toDigitsAux fuel n) : ∃ d, c = digitChar d := by
  induction fuel generalizing n with
  | zero => simp [toDigitsAux] at h
  | succ fuel ih =>
    by_cases h10 : n < 10
    · simp [toDigitsAux, h10] at h
      exact ⟨n, h⟩
    · simp only [toDigitsAux, if_neg h10, List.mem_append] at h
      rcases h with h | h
      · exact ih h
      · simp at h
        exact ⟨n % 10, h⟩

theorem natChars_not_mem_PAT {n : Nat} {c : Char}
    (h : c ∈ natChars n) : c ∉ PAT := by
  obtain ⟨d, rfl⟩ := toDigitsAux_mem h
  exact digitChar_not_mem_PAT d

theorem toDigitsAux_ne_nil (fuel n : Nat) : toDigitsAux (fuel + 1) n ≠ [] := by
  by_cases h10 : n < 10 <;> simp [toDigitsAux, h10]

theorem natChars_ne_nil (n : Nat) : natChars n ≠ [] := toDigitsAux_ne_nil n n

/-! ### Counting occurrences of the bootstrap filename around the tag -/

theorem tagChars_decomp (port : Nat) :
    tagChars port
      = ['\n'] ++ ("<script src=\"http://127.0.0.1:".data
          ++ (natChars port
          ++ ("/flashsync.js\" defer></script>".data ++ (['\n'] ++ [])))) := by
  have h1 : "\n<script src=\"http://127.0.0.1:".data
      = '\n' :: "<script src=\"http://127.0.0.1:".data := by decide
  have h2 : "/flashsync.js\" defer></script>\n".data
      = "/flashsync.js\" defer></script>".data ++ ['\n'] := by decide
  simp [tagChars, h1, h2]

theorem occurs_insert_tag {A B : List Char} (port : Nat)
    (hA : occurs PAT A = 0) (hB : occurs PAT B = 0) :
    occurs PAT (A ++ (tagChars port ++ B)) = 1 := by
  have hp : PAT ≠ [] := by decide
  have hnl : ∀ c ∈ ['\n'], c ∉ PAT := by decide
  have hdig : ∀ c ∈ natChars port, c ∉ PAT := fun c hc => natChars_not_mem_PAT hc
  rw [tagChars_decomp]
  have e1 : A ++ ((['\n'] ++ ("<script src=\"http://127.0.0.1:".data
          ++ (natChars port
          ++ ("/flashsync.js\" defer></script>".data ++ (['\n'] ++ []))))) ++ B)
      = A ++ (['\n'] ++ ("<script src=\"http://127.0.0.1:".data
          ++ (natChars port
          ++ ("/flashsync.js\" defer></script>".data ++ (['\n'] ++ B))))) := by
    simp
  rw [e1, occurs_append_sep _ _ _ hp (by decide) hnl,
    occurs_append_sep _ _ _ hp (natChars_ne_nil port) hdig,
    occurs_append_sep _ _ _ hp (by decide) hnl, hA, hB]
  decide

theorem occurs_take_eq_zero {s : List Char} {i : Nat}
    (h : occurs PAT s = 0) : occurs PAT (s.take i) = 0 := by
  have hp : PAT ≠ [] := by decide
  have := occurs_le_append_right PAT (s.take i) (s.drop i) hp
  rw [List.take_append_drop] at this
  omega

theorem occurs_drop_eq_zero {s : List Char} {i : Nat}
    (h : occurs PAT s = 0) : occurs PAT (s.drop i) = 0 := by
  have := occurs_le_append_left PAT (s.take i) (s.drop i)
  rw [List.take_append_drop] at this
  omega


/-! ### Port-allocation lemmas -/

theorem getFreePort_go (busy : List Nat) :
    ∀ fuel start, (∃ j, j < fuel ∧ (start + j) ∉ busy) →
    ∃ p, getFreePort busy fuel start = some p ∧ p ∉ busy ∧ start ≤ p ∧
      ∀ q, start ≤ q → q < p → q ∈ busy := by
  intro fuel
  induction fuel with
  | zero =>
    rintro start ⟨j, hj, _⟩
    omega
  | succ fuel ih =>
    rintro start ⟨j, hj, hfree⟩
    by_cases hs : start ∈ busy
    · have hj0 : j ≠ 0 := by
        rintro rfl
        simp only [Nat.add_zero] at hfree
        exact hfree hs
      obtain ⟨j1, rfl⟩ : ∃ j1, j = j1 + 1 := ⟨j - 1, by omega⟩
      obtain ⟨p, hp, hnb, hle, hmin⟩ := ih (start + 1)
        ⟨j1, by omega, by
          have harr : start + 1 + j1 = start + (j1 + 1) := by omega
          rw [harr]; exact hfree⟩
      refine ⟨p, by simp [getFreePort, hs, hp], hnb, by omega, ?_⟩
      intro q hq1 hq2
      by_cases hq : q = start
      · subst hq; exact hs
      · exact hmin q (by omega) hq2
    · exact ⟨start, by simp [getFreePort, hs], hs, Nat.le_refl _, by
        intro q h1 h2; omega⟩

theorem exists_unbusy (busy : List Nat) (start : Nat) :
    ∃ j, j < busy.length + 1 ∧ (start + j) ∉ busy := by
  by_contra h
  push_neg at h
  have hsub : (Finset.range (busy.length + 1)).image (fun j => start + j)
      ⊆ busy.toFinset := by
    intro x hx
    simp only [Finset.mem_image, Finset.mem_range] at hx
    obtain ⟨j, hj, rfl⟩ := hx
    simpa using h j hj
  have hcard : busy.length + 1 ≤ busy.toFinset.card := by
    have hc := Finset.card_le_card hsub
    rwa [Finset.card_image_of_injective _ (fun a b hab => by omega),
      Finset.card_range] at hc
  have := busy.toFinset_card_le
  omega

/-! ### Broadcast-gating lemmas -/

theorem broadcastIfAllowed_sound {e : Engine} {now : Nat} {d : Doc} {m : Msg}
    (h : m ∈ broadcastIfAllowed e now d) :
    e.serverState = ServerState.running_editing ∧ watched m.file = true ∧
      m.file = d.fileName ∧ m.content = lookupDoc e.docs d.uri ∧
      m.sentAt = now := by
  by_cases h1 : e.wss = true
  case neg => simp [broadcastIfAllowed, h1] at h
  by_cases h2 : e.serverState = ServerState.running_editing
  case neg => simp [broadcastIfAllowed, h1, h2] at h
  by_cases h3 : watched d.fileName = true
  case neg => simp [broadcastIfAllowed, h1, h2, h3] at h
  simp only [broadcastIfAllowed, h1, h2, h3, if_true, List.mem_singleton] at h
  subst h
  exact ⟨h2, h3, rfl, rfl, rfl⟩

theorem fireAux_log_sound : ∀ (l : List Pending) (e : Engine),
    ∀ pr ∈ (fireAux e l).2, ∀ m ∈ pr.2,
      pr.1.serverState = ServerState.running_editing ∧ watched m.file = true := by
  intro l
  induction l with
  | nil =>
    intro e pr hpr
    simp [fireAux] at hpr
  | cons p rest ih =>
    intro e pr hpr
    simp only [fireAux, List.mem_cons] at hpr
    rcases hpr with rfl | hpr
    · intro m hm
      have hs := broadcastIfAllowed_sound hm
      exact ⟨hs.1, hs.2.1⟩
    · exact ih _ pr hpr

theorem handle_msgs_sound (e : Engine) (t : Nat) (ev : Ev) :
    ∀ m ∈ (handle e t ev).2,
      e.serverState = ServerState.running_editing ∧ watched m.file = true := by
  cases ev with
  | save d =>
    intro m hm
    by_cases h : e.listenersRegistered = true
    · simp only [handle, if_pos h] at hm
      have hs := broadcastIfAllowed_sound hm
      exact ⟨hs.1, hs.2.1⟩
    · simp [handle, h] at hm
  | edit d c =>
    intro m hm
    simp only [handle] at hm
    split at hm <;> simp at hm
  | startCmd p =>
    intro m hm
    simp [handle] at hm
  | stopCmd =>
    intro m hm
    simp [handle] at hm
  | pauseCmd =>
    intro m hm
    simp only [handle] at hm
    split at hm <;> simp at hm
  | resumeCmd =>
    intro m hm
    simp only [handle] at hm
    split at hm <;> simp at hm
  | elapse =>
    intro m hm
    simp [handle] at hm

theorem step_log_sound (e : Engine) (t : Nat) (ev : Ev) :
    ∀ pr ∈ (step e t ev).2, ∀ m ∈ pr.2,
      pr.1.serverState = ServerState.running_editing ∧ watched m.file = true := by
  intro pr hpr
  simp only [step, List.mem_append, List.mem_singleton] at hpr
  rcases hpr with hpr | rfl
  · exact fireAux_log_sound _ _ pr (by simpa [fireDue] using hpr)
  · exact handle_msgs_sound _ _ _

theorem exec_log_sound : ∀ (tr : List (Nat × Ev)) (e : Engine),
    ∀ pr ∈ (exec e tr).2, ∀ m ∈ pr.2,
      pr.1.serverState = ServerState.running_editing ∧ watched m.file = true := by
  intro tr
  induction tr with
  | nil =>
    intro e pr hpr
    simp [exec] at hpr
  | cons te rest ih =>
    intro e pr hpr
    simp only [exec, List.mem_append] at hpr
    rcases hpr with hpr | hpr
    · exact step_log_sound _ _ _ pr hpr
    · exact ih _ pr hpr

/-! ### Trace-composition and debounce-invariant lemmas -/

theorem exec_append (e : Engine) (l1 l2 : List (Nat × Ev)) :
    exec e (l1 ++ l2)
      = ((exec (exec e l1).1 l2).1,
         (exec e l1).2 ++ (exec (exec e l1).1 l2).2) := by
  induction l1 generalizing e with
  | nil => simp [exec]
  | cons te rest ih => simp [exec, ih, List.append_assoc]

theorem lookupDoc_setDoc (docs : List (String × String)) (k c : String) :
    lookupDoc (setDoc docs k c) k = c := by
  simp [lookupDoc, setDoc, List.find?]

theorem fireDue_of_no_due {e : Engine} {t : Nat}
    (h : e.timers.filter (fun p => decide (p.deadline ≤ t)) = []) :
    fireDue e t = (e, []) := by
  simp [fireDue, h, fireAux]

theorem step_edit_inv {d : Doc} {e : Engine} {t0 t : Nat} {c0 : String}
    (c : String) (hInv : InvC3 d e t0 c0) (ht : t < t0 + DEBOUNCE_MS) :
    InvC3 d (step e t (Ev.edit d c)).1 t c ∧
      (step e t (Ev.edit d c)).2 = [(e, [])] := by
  obtain ⟨hs, hw, hl, htm, hd⟩ := hInv
  have hno : e.timers.filter (fun p => decide (p.deadline ≤ t)) = [] := by
    rw [htm]
    simp only [List.filter_cons, List.filter_nil]
    have : ¬ (t0 + DEBOUNCE_MS ≤ t) := by omega
    simp [this]
  have hfd := fireDue_of_no_due hno
  have hstep : step e t (Ev.edit d c)
      = ({ e with
            docs := setDoc e.docs d.uri c
            timers := [⟨d.uri, t + DEBOUNCE_MS, d⟩] }, [(e, [])]) := by
    simp only [step, hfd, handle, hl, if_pos, htm]
    simp [htm]
  rw [hstep]
  exact ⟨⟨hs, hw, hl, rfl, lookupDoc_setDoc _ _ _⟩, rfl⟩

theorem C3_run (d : Doc) :
    ∀ (l : List (Nat × String)) (e : Engine) (t0 : Nat) (c0 : String),
      InvC3 d e t0 c0 →
      List.Chain' (fun a b => a.1 ≤ b.1 ∧ b.1 < a.1 + DEBOUNCE_MS) ((t0, c0) :: l) →
      InvC3 d (exec e (l.map (fun tc => (tc.1, Ev.edit d tc.2)))).1
          (l.getLastD (t0, c0)).1 (l.getLastD (t0, c0)).2 ∧
        ∀ pr ∈ (exec e (l.map (fun tc => (tc.1, Ev.edit d tc.2)))).2, pr.2 = [] := by
  intro l
  induction l with
  | nil =>
    intro e t0 c0 hInv _
    exact ⟨by simpa [exec, List.getLastD] using hInv, by simp [exec]⟩
  | cons tc l ih =>
    intro e t0 c0 hInv hch
    rw [List.chain'_cons] at hch
    obtain ⟨⟨h1, h2⟩, hch2⟩ := hch
    obtain ⟨hInv2, hlog⟩ := step_edit_inv tc.2 hInv h2
    have hch3 : List.Chain' (fun a b => a.1 ≤ b.1 ∧ b.1 < a.1 + DEBOUNCE_MS)
        ((tc.1, tc.2) :: l) := by
      simpa using hch2
    obtain ⟨ihInv, ihlog⟩ := ih (step e tc.1 (Ev.edit d tc.2)).1 tc.1 tc.2 hInv2 hch3
    constructor
    · rw [List.getLastD_cons]
      simpa [exec] using ihInv
    · intro pr hpr
      simp only [List.map_cons, exec, List.mem_append, hlog,
        List.mem_singleton] at hpr
      rcases hpr with rfl | hpr
      · rfl
      · exact ihlog pr hpr

theorem step_elapse_fire {d : Doc} {e : Engine} {t0 T : Nat} {c0 : String}
    (hInv : InvC3 d e t0 c0) (hw : watched d.fileName = true)
    (hT : t0 + DEBOUNCE_MS ≤ T) :
    step e T Ev.elapse
      = ({ e with timers := [] },
         [(e, [⟨d.fileName, c0, t0 + DEBOUNCE_MS⟩]),
          ({ e with timers := [] }, [])]) := by
  obtain ⟨hs, hwss, hl, htm, hd⟩ := hInv
  have hb : broadcastIfAllowed e (t0 + DEBOUNCE_MS) d
      = [⟨d.fileName, c0, t0 + DEBOUNCE_MS⟩] := by
    simp [broadcastIfAllowed, hwss, hs, hw, hd]
  simp only [step, fireDue, htm]
  rw [show List.filter (fun p => decide (p.deadline ≤ T))
      [(⟨d.uri, t0 + DEBOUNCE_MS, d⟩ : Pending)]
      = [⟨d.uri, t0 + DEBOUNCE_MS, d⟩] from by simp [hT]]
  simp [fireAux, hb, handle, htm]

theorem step_start_init (p : Nat) :
    step initEngine 0 (Ev.startCmd p) = (E0 p, [(initEngine, [])]) := by
  rfl

theorem step_first_edit (d : Doc) (p t : Nat) (c : String) :
    InvC3 d (step (E0 p) t (Ev.edit d c)).1 t c ∧
      (step (E0 p) t (Ev.edit d c)).2 = [(E0 p, [])] := by
  have hstep : step (E0 p) t (Ev.edit d c)
      = ({ E0 p with
            docs := setDoc [] d.uri c
            timers := [⟨d.uri, t + DEBOUNCE_MS, d⟩] }, [(E0 p, [])]) := by
    simp [step, fireDue, fireAux, handle, E0, setDoc]
  rw [hstep]
  exact ⟨⟨rfl, rfl, rfl, rfl, lookupDoc_setDoc _ _ _⟩, rfl⟩

theorem step_save {d : Doc} {e : Engine} {t0 t : Nat} {c0 : String}
    (hInv : InvC3 d e t0 c0) (ht : t < t0 + DEBOUNCE_MS)
    (hw : watched d.fileName = true) :
    step e t (Ev.save d) = (e, [(e, [⟨d.fileName, c0, t⟩])]) := by
  obtain ⟨hs, hwss, hl, htm, hd⟩ := hInv
  have hno : e.timers.filter (fun p => decide (p.deadline ≤ t)) = [] := by
    rw [htm]
    simp only [List.filter_cons, List.filter_nil]
    have hnot : ¬ (t0 + DEBOUNCE_MS ≤ t) := by omega
    simp [hnot]
  have hfd := fireDue_of_no_due hno
  have hb : broadcastIfAllowed e t d = [⟨d.fileName, c0, t⟩] := by
    simp [broadcastIfAllowed, hwss, hs, hw, hd]
  simp [step, hfd, handle, hl, hb]

theorem fireAux_pre_state : ∀ (l : List Pending) (e : Engine),
    ∀ pr ∈ (fireAux e l).2, pr.1.serverState = e.serverState := by
  intro l
  induction l with
  | nil =>
    intro e pr hpr
    simp [fireAux] at hpr
  | cons p rest ih =>
    intro e pr hpr
    simp only [fireAux, List.mem_cons] at hpr
    rcases hpr with rfl | hpr
    · rfl
    · have hrec := ih _ pr hpr
      simpa using hrec

theorem fireAux_final_state : ∀ (l : List Pending) (e : Engine),
    (fireAux e l).1.serverState = e.serverState := by
  intro l
  induction l with
  | nil => intro e; rfl
  | cons p rest ih => intro e; exact ih _

theorem step_elapse_pre_state (e : Engine) (t : Nat) :
    ∀ pr ∈ (step e t Ev.elapse).2, pr.1.serverState = e.serverState := by
  intro pr hpr
  simp only [step, List.mem_append, List.mem_singleton] at hpr
  rcases hpr with hpr | rfl
  · exact fireAux_pre_state _ _ pr (by simpa [fireDue] using hpr)
  · simpa [fireDue] using fireAux_final_state
      (e.timers.filter (fun p => decide (p.deadline ≤ t))) e

theorem flatten_map_snd_eq_nil {log : List (Engine × List Msg)}
    (h : ∀ pr ∈ log, pr.2 = []) :
    (log.map (fun pr => pr.2)).flatten = ([] : List Msg) := by
  induction log with
  | nil => rfl
  | cons a l ih =>
    simp only [List.map_cons, List.flatten_cons, h a (by simp)]
    exact ih (fun pr hpr => h pr (by simp [hpr]))

theorem drop_decomp {pat s : List Char} {i : Nat}
    (h : firstOcc pat s = some i) :
    s.drop i = pat ++ s.drop (i + pat.length) := by
  have h1 := (firstOcc_isPre_drop h).1
  have h2 := drop_eq_append_of_isPre h1
  rw [List.drop_drop] at h2
  simpa [Nat.add_comm] using h2

theorem includesL_of_occurs_ne {pat s : List Char}
    (h : occurs pat s ≠ 0) : includesL pat s = true := by
  cases hf : firstOcc pat s with
  | none => exact absurd ((firstOcc_none_iff pat s).1 hf) h
  | some i => simp [includesL, hf]

theorem occurs_eq_zero_of_not_includes {pat s : List Char}
    (h : includesL pat s = false) : occurs pat s = 0 := by
  cases hf : firstOcc pat s with
  | none => exact (firstOcc_none_iff pat s).1 hf
  | some i => simp [includesL, hf] at h

theorem injectL_occurs_one {html : List Char} (port : Nat)
    (h : includesL PAT html = false) :
    occurs PAT (injectL html port) = 1 := by
  have h0 : occurs PAT html = 0 := occurs_eq_zero_of_not_includes h
  simp only [injectL, h, Bool.false_eq_true, if_false]
  by_cases hh : includesL HEADC html = true
  · rw [if_pos hh]
    cases hf : firstOcc HEADC html with
    | none => simp [includesL, hf] at hh
    | some i =>
      rw [replaceFirst_eq hf]
      have he : html.take i ++ (tagChars port ++ HEADC)
            ++ html.drop (i + HEADC.length)
          = html.take i ++ (tagChars port ++ html.drop i) := by
        rw [drop_decomp hf]
        simp [List.append_assoc]
      rw [he]
      exact occurs_insert_tag port (occurs_take_eq_zero h0)
        (occurs_drop_eq_zero h0)
  · rw [if_neg hh]
    by_cases hb : includesL BODYC html = true
    · rw [if_pos hb]
      cases hf : firstOcc BODYC html with
      | none => simp [includesL, hf] at hb
      | some i =>
        rw [replaceFirst_eq hf]
        have he : html.take i ++ (tagChars port ++ BODYC)
              ++ html.drop (i + BODYC.length)
            = html.take i ++ (tagChars port ++ html.drop i) := by
          rw [drop_decomp hf]
          simp [List.append_assoc]
        rw [he]
        exact occurs_insert_tag port (occurs_take_eq_zero h0)
          (occurs_drop_eq_zero h0)
    · rw [if_neg hb]
      have he : html ++ tagChars port = html ++ (tagChars port ++ []) := by simp
      rw [he]
      have h00 : occurs PAT ([] : List Char) = 0 := occurs_nil PAT (by decide)
      exact occurs_insert_tag port h0 h00

theorem injectL_of_includes {s : List Char} (port : Nat)
    (h : includesL PAT s = true) : injectL s port = s := by
  simp [injectL, h]

/-! ## Claim theorems -/

/-- C2: `injectScript` is idempotent.  For every HTML string already
containing a reference to the bootstrap script filename
(`flashsync.js`), it returns the string unchanged; for every HTML
string without such a reference, the result contains exactly one
reference (occurrence count 1), and applying `injectScript` again to
that result returns it unchanged — a fixed point. -/
theorem C2_inject_idempotent (html : String) (port : Nat) :
    (includesL PAT html.data = true → injectScript html port = html) ∧
    (includesL PAT html.data = false →
      occurs PAT (injectScript html port).data = 1 ∧
      injectScript (injectScript html port) port = injectScript html port) := by
  constructor
  · intro h
    show String.mk (injectL html.data port) = html
    rw [injectL_of_includes port h]
  · intro h
    have hkey : occurs PAT (injectL html.data port) = 1 :=
      injectL_occurs_one port h
    have hdata : (injectScript html port).data = injectL html.data port := rfl
    refine ⟨by rw [hdata]; exact hkey, ?_⟩
    have hfix : injectL (injectL html.data port) port = injectL html.data port :=
      injectL_of_includes port (includesL_of_occurs_ne (by omega))
    show String.mk (injectL (String.mk (injectL html.data port)).data port)
      = String.mk (injectL html.data port)
    rw [show (String.mk (injectL html.data port)).data
      = injectL html.data port from rfl, hfix]

/-- C2 witness: a concrete document without the reference gets exactly
one reference, and re-injection is a fixed point. -/
theorem C2_inject_idempotent_witness :
    includesL PAT "<html><head></head><body></body></html>".data = false ∧
    occurs PAT (injectScript "<html><head></head><body></body></html>" 9090).data = 1 ∧
    injectScript (injectScript "<html><head></head><body></body></html>" 9090) 9090
      = injectScript "<html><head></head><body></body></html>" 9090 :=
  ⟨by decide,
    (C2_inject_idempotent "<html><head></head><body></body></html>" 9090).2 (by decide)⟩

/-- C6: for every HTML string without an existing bootstrap reference,
`injectScript` places the tag by the fixed fallback chain, and exactly
one placement occurs: immediately before the first closing head tag
when one exists, else immediately before the first closing body tag
when one exists, else appended at the end of the document. -/
theorem C6_injection_fallback_order (html : String) (port : Nat)
    (h : includesL PAT html.data = false) :
    (∀ i, firstOcc HEADC html.data = some i →
      (injectScript html port).data
        = html.data.take i ++ tagChars port ++ html.data.drop i) ∧
    (firstOcc HEADC html.data = none →
      ∀ i, firstOcc BODYC html.data = some i →
      (injectScript html port).data
        = html.data.take i ++ tagChars port ++ html.data.drop i) ∧
    (firstOcc HEADC html.data = none → firstOcc BODYC html.data = none →
      (injectScript html port).data = html.data ++ tagChars port) := by
  have hdata : (injectScript html port).data = injectL html.data port := rfl
  refine ⟨?_, ?_, ?_⟩
  · intro i hf
    have hh : includesL HEADC html.data = true := by simp [includesL, hf]
    rw [hdata]
    simp only [injectL, h, Bool.false_eq_true, if_false, hh, if_true]
    rw [replaceFirst_eq hf, drop_decomp hf]
    simp [List.append_assoc]
  · intro hnone i hf
    have hh : includesL HEADC html.data = false := by simp [includesL, hnone]
    have hb : includesL BODYC html.data = true := by simp [includesL, hf]
    rw [hdata]
    simp only [injectL, h, hh, Bool.false_eq_true, if_false, hb, if_true]
    rw [replaceFirst_eq hf, drop_decomp hf]
    simp [List.append_assoc]
  · intro hn1 hn2
    have hh : includesL HEADC html.data = false := by simp [includesL, hn1]
    have hb : includesL BODYC html.data = false := by simp [includesL, hn2]
    rw [hdata]
    simp only [injectL, h, hh, hb, Bool.false_eq_true, if_false]

/-- C6 witness: the three fallback branches on the literal fixtures
with a head close tag, with only a body close tag, and with neither. -/
theorem C6_injection_fallback_order_witness :
    ((injectScript "<html><head></head><body></body></html>" 9090).data
      = "<html><head></head><body></body></html>".data.take 12
        ++ tagChars 9090
        ++ "<html><head></head><body></body></html>".data.drop 12) ∧
    ((injectScript "<body></body>" 9090).data
      = "<body></body>".data.take 6 ++ tagChars 9090
        ++ "<body></body>".data.drop 6) ∧
    ((injectScript "plain" 9090).data = "plain".data ++ tagChars 9090) :=
  ⟨(C6_injection_fallback_order "<html><head></head><body></body></html>" 9090
      (by decide)).1 12 (by decide),
    (C6_injection_fallback_order "<body></body>" 9090 (by decide)).2.1
      (by decide) 6 (by decide),
    (C6_injection_fallback_order "plain" 9090 (by decide)).2.2
      (by decide) (by decide)⟩

/-- C10: the bootstrap-reference check in `injectScript` is a plain
substring test: any HTML string containing the characters
`flashsync.js` anywhere — e.g. as visible text or inside a comment,
with no script element present — is returned completely unchanged, so
no bootstrap script tag is injected into such a document. -/
theorem C10_plain_substring_check (html : String) (port : Nat)
    (h : includesL PAT html.data = true) : injectScript html port = html := by
  show String.mk (injectL html.data port) = html
  rw [injectL_of_includes port h]

/-- C10 witness: a document whose only mention of `flashsync.js` is
inside an HTML comment, with no script element at all, is returned
unchanged. -/
theorem C10_plain_substring_check_witness :
    includesL PAT "<!-- flashsync.js --><body></body>".data = true ∧
    includesL "<script".data "<!-- flashsync.js --><body></body>".data = false ∧
    injectScript "<!-- flashsync.js --><body></body>" 9090
      = "<!-- flashsync.js --><body></body>" :=
  ⟨by decide, by decide, C10_plain_substring_check _ 9090 (by decide)⟩

/-- C8: over the model where `busy` is the finite list of currently
bindable-refused local ports, `getFreePort` (with enough fuel, the
source recursion being unbounded) returns the smallest free port
greater than or equal to the preferred start: it returns `start`
itself when free, and when `start` is busy it returns a different,
actually free port, every port between `start` and the result being
busy. -/
theorem C8_port_allocation (busy : List Nat) (start : Nat) :
    ∃ p, getFreePort busy (busy.length + 1) start = some p ∧ p ∉ busy ∧
      start ≤ p ∧ (∀ q, start ≤ q → q < p → q ∈ busy) ∧
      (start ∉ busy → p = start) ∧ (start ∈ busy → p ≠ start) := by
  obtain ⟨j, hj, hfree⟩ := exists_unbusy busy start
  obtain ⟨p, hp, hnb, hle, hmin⟩ :=
    getFreePort_go busy (busy.length + 1) start ⟨j, hj, hfree⟩
  refine ⟨p, hp, hnb, hle, hmin, ?_, ?_⟩
  · intro hs
    by_contra hne
    have hlt : start < p := by omega
    exact hs (hmin start (Nat.le_refl _) hlt)
  · intro hs heq
    rw [heq] at hnb
    exact hnb hs

/-- C8 witness: with port 9090 already bound, allocation returns the
different free port 9091. -/
theorem C8_port_allocation_witness :
    ∃ p, getFreePort [9090] ([9090].length + 1) 9090 = some p ∧
      p ∉ [9090] ∧ 9090 ≤ p ∧ (∀ q, 9090 ≤ q → q < p → q ∈ [9090]) ∧
      (9090 ∉ [9090] → p = 9090) ∧ (9090 ∈ [9090] → p ≠ 9090) :=
  C8_port_allocation [9090] 9090

/-- C4: `startServer` is idempotent and `stopServer` is a safe no-op
when already stopped: a second start while a server is running returns
the same port as the first call, changes nothing — in particular it
creates no new listener (`listenersCreated` unchanged) and ignores any
freshly allocated port (the result does not depend on the second
allocation argument); and a second `stopServer` in a row is total,
changes nothing, and leaves the state `stopped`. -/
theorem C4_idempotent_start_stop (e : Engine) (p1 p2 q : Nat) :
    (startServer (startServer e p1).1 p2).2 = (startServer e p1).2 ∧
    (startServer (startServer e p1).1 p2).1 = (startServer e p1).1 ∧
    (startServer (startServer e p1).1 p2).1.listenersCreated
      = (startServer e p1).1.listenersCreated ∧
    startServer (startServer e p1).1 p2 = startServer (startServer e p1).1 q ∧
    stopServer (stopServer e) = stopServer e ∧
    (stopServer (stopServer e)).serverState = ServerState.stopped := by
  by_cases h : e.httpServer = true
  · simp [startServer, stopServer, h]
  · simp [startServer, stopServer, h]

/-- C1: at no reachable point does the engine hand a change message to
the hub unless the session state is `running_editing` at the moment of
the send: in every run from the initial state, every micro-step that
emitted a message (a debounce-timer callback or a save handler) ran
from a state whose `serverState` was `running_editing`.  In
particular — second conjunct — an edit debounced while live-editing
whose timer fires only after a transition to paused produces no
message, because `broadcastIfAllowed` checks the state at send time,
not at schedule time. -/
theorem C1_send_time_state_gating :
    (∀ tr : List (Nat × Ev), ∀ pr ∈ (runTrace tr).2, pr.2 ≠ [] →
      pr.1.serverState = ServerState.running_editing) ∧
    outputs [(0, Ev.startCmd 9090),
      (1, Ev.edit ⟨"file:///a.html", "/a.html"⟩ "x"),
      (2, Ev.pauseCmd), (300, Ev.elapse)] = [] := by
  constructor
  · intro tr pr hpr hne
    obtain ⟨m, hm⟩ := List.exists_mem_of_ne_nil _ hne
    exact (exec_log_sound tr initEngine pr hpr m hm).1
  · decide

/-- C1 witness: in a run where a debounced edit does fire while
live-editing, the emitting micro-step's pre-state is `running_editing`. -/
theorem C1_send_time_state_gating_witness :
    (Engine.mk ServerState.running_editing true true (some 9090) true 1
        [Pending.mk "file:///a.html" 141 (Doc.mk "file:///a.html" "/a.html")]
        [("file:///a.html", "x")]).serverState
      = ServerState.running_editing :=
  C1_send_time_state_gating.1
    [(0, Ev.startCmd 9090), (1, Ev.edit ⟨"file:///a.html", "/a.html"⟩ "x"),
      (200, Ev.elapse)]
    (⟨ServerState.running_editing, true, true, some 9090, true, 1,
        [⟨"file:///a.html", 141, ⟨"file:///a.html", "/a.html"⟩⟩],
        [("file:///a.html", "x")]⟩,
      [⟨"/a.html", "x", 141⟩])
    (by decide) (by decide)

/-- C9: no broadcast ever carries a file outside the watched
extensions: in every run from the initial state, every emitted message
has a file name whose lowercased extension is one of `.html`, `.htm`,
`.css` — so an edit or save event on a document with any other
extension never produces a broadcast, in any session state (the
message a broadcast would produce carries exactly that document's file
name).  The second conjunct shows the concrete scenario: an edit and a
save of a `.txt` document while live-editing produce no message at
all. -/
theorem C9_extension_filtering :
    (∀ tr : List (Nat × Ev), ∀ m ∈ outputs tr, watched m.file = true) ∧
    outputs [(0, Ev.startCmd 9090),
      (1, Ev.edit ⟨"file:///notes.txt", "/notes.txt"⟩ "x"),
      (2, Ev.save ⟨"file:///notes.txt", "/notes.txt"⟩),
      (300, Ev.elapse)] = [] := by
  constructor
  · intro tr m hm
    unfold outputs at hm
    rw [List.mem_flatten] at hm
    obtain ⟨l, hl, hml⟩ := hm
    rw [List.mem_map] at hl
    obtain ⟨pr, hpr, rfl⟩ := hl
    exact (exec_log_sound tr initEngine pr hpr m hml).2
  · decide

/-- C9 witness: a message actually emitted in a run has a watched
extension. -/
theorem C9_extension_filtering_witness : watched "/a.html" = true :=
  C9_extension_filtering.1
    [(0, Ev.startCmd 9090), (1, Ev.edit ⟨"file:///a.html", "/a.html"⟩ "x"),
      (200, Ev.elapse)]
    ⟨"/a.html", "x", 141⟩ (by decide)

/-- C5 counterexample: the claim that the pending-timer map is empty
whenever the session state is `stopped` is false on the code — after
start, one edit and an immediate stop, the state is `stopped` yet the
debounce timer scheduled by the edit is still pending, because
`stopServer` never touches `debounceTimers`. -/
theorem C5_counterexample :
    (finalState [(0, Ev.startCmd 9090),
        (1, Ev.edit ⟨"file:///a.html", "/a.html"⟩ "x"),
        (2, Ev.stopCmd)]).serverState = ServerState.stopped ∧
    (finalState [(0, Ev.startCmd 9090),
        (1, Ev.edit ⟨"file:///a.html", "/a.html"⟩ "x"),
        (2, Ev.stopCmd)]).timers ≠ [] := by
  decide

/-- C5 amended: `stopServer` does not cancel outstanding debounce
timers, so the pending-timer map may be non-empty while the session is
`stopped`; but such leftover timers are harmless — once the session is
stopped, letting any amount of time elapse produces no further message
(the send-time state check fails) — and `deactivate` (extension
teardown) does cancel every outstanding timer, leaving the map empty. -/
theorem C5_stop_leaves_timers_amended (tr : List (Nat × Ev)) (t : Nat) :
    (deactivate (finalState tr)).timers = [] ∧
    ((finalState tr).serverState = ServerState.stopped →
      outputs (tr ++ [(t, Ev.elapse)]) = outputs tr) := by
  constructor
  · rfl
  · intro hs
    unfold outputs runTrace
    rw [exec_append]
    simp only [List.map_append, List.flatten_append]
    have hall : ∀ pr ∈ (exec (exec initEngine tr).1 [(t, Ev.elapse)]).2,
        pr.2 = ([] : List Msg) := by
      intro pr hpr
      by_contra hne
      obtain ⟨m, hm⟩ := List.exists_mem_of_ne_nil _ hne
      have hed := (exec_log_sound _ _ pr hpr m hm).1
      have hprs : pr ∈ (step (exec initEngine tr).1 t Ev.elapse).2 := by
        simpa [exec] using hpr
      have hstop := step_elapse_pre_state (exec initEngine tr).1 t pr hprs
      rw [hed] at hstop
      have hfin : (finalState tr).serverState
          = (exec initEngine tr).1.serverState := rfl
      rw [hfin, ← hstop] at hs
      exact absurd hs (by simp)
    rw [flatten_map_snd_eq_nil hall]
    simp [outputs, runTrace]

/-- C5 amended witness: the concrete start-edit-stop run, followed by
an elapse long after the debounce window, emits nothing new, and
`deactivate` empties the timer map. -/
theorem C5_stop_leaves_timers_amended_witness :
    (deactivate (finalState [(0, Ev.startCmd 9090),
        (1, Ev.edit ⟨"file:///a.html", "/a.html"⟩ "x"),
        (2, Ev.stopCmd)])).timers = [] ∧
    outputs ([(0, Ev.startCmd 9090),
        (1, Ev.edit ⟨"file:///a.html", "/a.html"⟩ "x"),
        (2, Ev.stopCmd)] ++ [(300, Ev.elapse)])
      = outputs [(0, Ev.startCmd 9090),
        (1, Ev.edit ⟨"file:///a.html", "/a.html"⟩ "x"),
        (2, Ev.stopCmd)] :=
  ⟨(C5_stop_leaves_timers_amended _ 300).1,
    (C5_stop_leaves_timers_amended _ 300).2 (by decide)⟩

/-- C3: pure trailing-edge debounce coalescing.  For any document, a
start followed by one or more edits to that document — each arriving
strictly within the 140 ms quiet window of its predecessor — followed
by quiet time past the window yields exactly one broadcast, and that
broadcast carries the content snapshot of the last edit, stamped one
quiet window after the last edit; each new edit cancelled and replaced
the single pending timer for that identity, so after the broadcast no
timer remains. -/
theorem C3_debounce_coalescing (d : Doc) (p T : Nat)
    (first : Nat × String) (rest : List (Nat × String))
    (hw : watched d.fileName = true)
    (hch : List.Chain' (fun a b => a.1 ≤ b.1 ∧ b.1 < a.1 + DEBOUNCE_MS)
      (first :: rest))
    (hT : (rest.getLastD first).1 + DEBOUNCE_MS ≤ T) :
    outputs ((0, Ev.startCmd p)
        :: ((first :: rest).map (fun tc => (tc.1, Ev.edit d tc.2))
          ++ [(T, Ev.elapse)]))
      = [⟨d.fileName, (rest.getLastD first).2,
          (rest.getLastD first).1 + DEBOUNCE_MS⟩] ∧
    (finalState ((0, Ev.startCmd p)
        :: ((first :: rest).map (fun tc => (tc.1, Ev.edit d tc.2))
          ++ [(T, Ev.elapse)]))).timers = [] := by
  obtain ⟨hInv1, hlog1⟩ := step_first_edit d p first.1 first.2
  have hch2 : List.Chain' (fun a b => a.1 ≤ b.1 ∧ b.1 < a.1 + DEBOUNCE_MS)
      ((first.1, first.2) :: rest) := by simpa using hch
  obtain ⟨hInv2, hlog2⟩ := C3_run d rest
    (step (E0 p) first.1 (Ev.edit d first.2)).1 first.1 first.2 hInv1 hch2
  have hInv3 : InvC3 d (exec (step (E0 p) first.1 (Ev.edit d first.2)).1
        (rest.map (fun tc => (tc.1, Ev.edit d tc.2)))).1
      (rest.getLastD first).1 (rest.getLastD first).2 := by
    simpa using hInv2
  have helapse := step_elapse_fire hInv3 hw hT
  have hsingle : exec (exec (step (E0 p) first.1 (Ev.edit d first.2)).1
        (rest.map (fun tc => (tc.1, Ev.edit d tc.2)))).1 [(T, Ev.elapse)]
      = ({ (exec (step (E0 p) first.1 (Ev.edit d first.2)).1
            (rest.map (fun tc => (tc.1, Ev.edit d tc.2)))).1 with timers := [] },
         [((exec (step (E0 p) first.1 (Ev.edit d first.2)).1
              (rest.map (fun tc => (tc.1, Ev.edit d tc.2)))).1,
           [⟨d.fileName, (rest.getLastD first).2,
             (rest.getLastD first).1 + DEBOUNCE_MS⟩]),
          ({ (exec (step (E0 p) first.1 (Ev.edit d first.2)).1
              (rest.map (fun tc => (tc.1, Ev.edit d tc.2)))).1 with
              timers := [] }, [])]) := by
    simp only [exec]
    rw [helapse]
    simp
  have hrun : runTrace ((0, Ev.startCmd p)
        :: ((first :: rest).map (fun tc => (tc.1, Ev.edit d tc.2))
          ++ [(T, Ev.elapse)]))
      = ({ (exec (step (E0 p) first.1 (Ev.edit d first.2)).1
            (rest.map (fun tc => (tc.1, Ev.edit d tc.2)))).1 with timers := [] },
         [(initEngine, [])] ++ ([(E0 p, [])]
           ++ ((exec (step (E0 p) first.1 (Ev.edit d first.2)).1
                (rest.map (fun tc => (tc.1, Ev.edit d tc.2)))).2
             ++ [((exec (step (E0 p) first.1 (Ev.edit d first.2)).1
                    (rest.map (fun tc => (tc.1, Ev.edit d tc.2)))).1,
                  [⟨d.fileName, (rest.getLastD first).2,
                    (rest.getLastD first).1 + DEBOUNCE_MS⟩]),
                 ({ (exec (step (E0 p) first.1 (Ev.edit d first.2)).1
                    (rest.map (fun tc => (tc.1, Ev.edit d tc.2)))).1 with
                    timers := [] }, [])]))) := by
    unfold runTrace
    simp only [List.map_cons, exec, step_start_init]
    simp only [List.cons_append, exec, hlog1, List.append_eq]
    rw [exec_append, hsingle]
  constructor
  · unfold outputs
    rw [hrun]
    simp only [List.map_append, List.flatten_append, List.map_cons,
      List.flatten_cons, List.map_nil, List.flatten_nil]
    rw [flatten_map_snd_eq_nil hlog2]
    simp
  · unfold finalState
    rw [hrun]

/-- C3 witness: three edits 10, 50, 100 ms in (each within the quiet
window of the previous), quiet afterwards — exactly one broadcast,
carrying the last snapshot, at 100 + 140 = 240 ms, and no timer left. -/
theorem C3_debounce_coalescing_witness :
    outputs ((0, Ev.startCmd 9090)
        :: ((((10, "x") : Nat × String) :: [(50, "y"), (100, "z")]).map
              (fun tc => (tc.1, Ev.edit ⟨"file:///a.html", "/a.html"⟩ tc.2))
          ++ [(240, Ev.elapse)]))
      = [⟨"/a.html", "z", 240⟩] ∧
    (finalState ((0, Ev.startCmd 9090)
        :: ((((10, "x") : Nat × String) :: [(50, "y"), (100, "z")]).map
              (fun tc => (tc.1, Ev.edit ⟨"file:///a.html", "/a.html"⟩ tc.2))
          ++ [(240, Ev.elapse)]))).timers = [] := by
  have h := C3_debounce_coalescing ⟨"file:///a.html", "/a.html"⟩ 9090 240
    (10, "x") [(50, "y"), (100, "z")] (by decide)
    (by simp [List.chain'_cons, DEBOUNCE_MS]) (by decide)
  simpa using h

/-- C7: save bypass.  A start, an edit, then a save of the same
document inside the quiet window, then quiet time: the save broadcast
goes out immediately at the save's timestamp, without cancelling the
still-pending debounce timer, which also fires at the end of its
window — at least two broadcasts in total, both carrying the full
current document content, and no crash or lost save (the run is a
total function and the save message is always present). -/
theorem C7_save_bypass (d : Doc) (p t1 t2 T : Nat) (c : String)
    (hw : watched d.fileName = true) (_h1 : t1 ≤ t2)
    (h2 : t2 < t1 + DEBOUNCE_MS) (hT : t1 + DEBOUNCE_MS ≤ T) :
    outputs [(0, Ev.startCmd p), (t1, Ev.edit d c), (t2, Ev.save d),
        (T, Ev.elapse)]
      = [⟨d.fileName, c, t2⟩, ⟨d.fileName, c, t1 + DEBOUNCE_MS⟩] ∧
    2 ≤ (outputs [(0, Ev.startCmd p), (t1, Ev.edit d c), (t2, Ev.save d),
        (T, Ev.elapse)]).length := by
  obtain ⟨hInv1, hlog1⟩ := step_first_edit d p t1 c
  have hsave := step_save hInv1 h2 hw
  have helapse := step_elapse_fire hInv1 hw hT
  have hout : outputs [(0, Ev.startCmd p), (t1, Ev.edit d c), (t2, Ev.save d),
        (T, Ev.elapse)]
      = [⟨d.fileName, c, t2⟩, ⟨d.fileName, c, t1 + DEBOUNCE_MS⟩] := by
    unfold outputs runTrace
    simp only [exec, step_start_init, hlog1, hsave, helapse]
    simp
  exact ⟨hout, by rw [hout]; simp⟩

/-- C7 witness: edit at 10 ms, save at 20 ms, quiet afterwards — two
broadcasts, the immediate save one at 20 ms and the debounced one at
150 ms, both with the full content. -/
theorem C7_save_bypass_witness :
    outputs [(0, Ev.startCmd 9090),
        (10, Ev.edit ⟨"file:///a.html", "/a.html"⟩ "x"),
        (20, Ev.save ⟨"file:///a.html", "/a.html"⟩), (300, Ev.elapse)]
      = [⟨"/a.html", "x", 20⟩, ⟨"/a.html", "x", 150⟩] ∧
    2 ≤ (outputs [(0, Ev.startCmd 9090),
        (10, Ev.edit ⟨"file:///a.html", "/a.html"⟩ "x"),
        (20, Ev.save ⟨"file:///a.html", "/a.html"⟩), (300, Ev.elapse)]).length := by
  have h := C7_save_bypass ⟨"file:///a.html", "/a.html"⟩ 9090 10 20 300 "x"
    (by decide) (by decide) (by decide) (by decide)
  simpa using h
